import Mathlib

/-!
Verification of the deposit-instruction builder (`src/js/src/instructions/deposit.ts`)
of the solido JS client, against its specification.

The embedding models:
* the binary layout codec `BufferLayout.struct([u8 instruction, nu64 amount])`,
  including the conversion of the amount to a JavaScript number performed by the
  `nu64` ("near" 64-bit) layout — modelled exactly over `Nat` as round-to-nearest-even
  at 53 significant bits;
* the program-derived-address engine (`findAuthorityProgramAddress`, whose body lives
  in `src/js/src/utils.ts`, not present under `src/`; modelled from the spec, §4.2),
  parametrised by abstract cryptographic primitives `hash` and `isOnCurve`;
* the account list and the instruction assembler `getDepositInstruction`.

Addresses are modelled as natural numbers; byte buffers as `List Nat` of byte values;
fallible operations return `Except Err`.
-/

/-- Error taxonomy of the module (spec §7): `rangeError` is the encoding
field-overflow error thrown by the Node buffer writers used by the layout codec;
the remaining constructors are the derivation and decoding failures named by the
spec. -/
inductive Err where
  | rangeError
  | invalidSeed
  | derivationExhausted
  | malformedPayload
  deriving DecidableEq, Repr

/-- Abstract cryptographic primitives injected into the Address Derivation Engine
(spec §9: interface `hash : bytes → bytes32`, `isOnCurve : bytes32 → Bool`).
A 32-byte value is modelled as a natural number. -/
structure Crypto where
  hash : List Nat → Nat
  isOnCurve : Nat → Bool

/-- Little-endian byte encoding of `v` on `w` bytes (the write order of the Node
`writeUInt32LE` buffer writers used by the layout codec). -/
def leBytes : Nat → Nat → List Nat
  | 0, _ => []
  | w + 1, v => v % 256 :: leBytes w (v / 256)

/-- Value of a little-endian byte list (the read order of `readUInt32LE`). -/
def leValue : List Nat → Nat
  | [] => 0
  | b :: bs => b + 256 * leValue bs

/-- Bit length of a natural number, computed with an explicit structural fuel
(`bitLenAux n n` suffices since the argument halves each step). -/
def bitLenAux : Nat → Nat → Nat
  | 0, _ => 0
  | fuel + 1, n => if n = 0 then 0 else bitLenAux fuel (n / 2) + 1

/-- Bit length: `bitLen 0 = 0` and `2^(bitLen n - 1) ≤ n < 2^(bitLen n)` for `n > 0`. -/
def bitLen (n : Nat) : Nat := bitLenAux n n

/-- Rounding of a nonnegative integer to the nearest IEEE-754 double
(round-to-nearest, ties to even, 53-bit significand), restricted to integers —
the conversion the amount undergoes when the `nu64` layout handles it as a
JavaScript number. Integers below `2^53` are exact; above, the value is rounded
to the nearest multiple of the unit in the last place. -/
def jsRound (n : Nat) : Nat :=
  if n < 2 ^ 53 then n
  else
    let k := bitLen n - 53
    let q := n / 2 ^ k
    let r := n % 2 ^ k
    let half := 2 ^ k / 2
    if r < half then q * 2 ^ k
    else if half < r then (q + 1) * 2 ^ k
    else if q % 2 = 0 then q * 2 ^ k else (q + 1) * 2 ^ k

/-- Fixed span of the deposit data layout: 1 byte `u8` discriminant + 8 byte
`nu64` amount (`dataLayout.span` in the source, the size passed to `Buffer.alloc`). -/
def dataLayoutSpan : Nat := 1 + 8

/-- Encoding by `dataLayout.encode` (deposit.ts lines 17–23): the `u8` writer
throws a `RangeError` when the discriminant exceeds 255; the `nu64` writer
converts the amount to a JavaScript number, splits it as
`hi32 = ⌊src / 2^32⌋`, `lo32 = src - hi32·2^32` and writes both with
`writeUInt32LE`, which throws a `RangeError` when `hi32` exceeds 32 bits. -/
def dataLayoutEncode (instruction : Nat) (amount : Nat) : Except Err (List Nat) :=
  if 255 < instruction then .error .rangeError
  else
    let src := jsRound amount
    let hi32 := src / 2 ^ 32
    let lo32 := src % 2 ^ 32
    if 2 ^ 32 ≤ hi32 then .error .rangeError
    else .ok (instruction :: (leBytes 4 lo32 ++ leBytes 4 hi32))

/-- Decoding by `dataLayout.decode`: reads the `u8` discriminant and the two
32-bit little-endian halves of the amount, and recombines them as the
JavaScript number `hi32 · 2^32 + lo32` (one rounding). Fails when the buffer is
shorter than the layout span. -/
def dataLayoutDecode (bs : List Nat) : Except Err (Nat × Nat) :=
  if bs.length < dataLayoutSpan then .error .malformedPayload
  else
    let instruction := bs.headD 0
    let lo32 := leValue ((bs.drop 1).take 4)
    let hi32 := leValue ((bs.drop 5).take 4)
    .ok (instruction, jsRound (hi32 * 2 ^ 32 + lo32))

/-- Byte values of the characters of a seed string. -/
def strBytes (s : String) : List Nat := s.data.map Char.toNat

/-- Modelled from the spec (§6): the fixed domain-separation tag appended during
derivation hashing. -/
def domainTag : List Nat := strBytes "ProgramDerivedAddress"

/-- The 32-byte encoding of an address value. -/
def pkBytes (p : Nat) : List Nat := leBytes 32 p

/-- Modelled from the spec (§4.2): the candidate address for bump `b` —
`hash(seeds ++ [b] ++ program_id ++ domain_tag)`. -/
def pdaCandidate (c : Crypto) (programId : Nat) (flatSeeds : List Nat) (b : Nat) : Nat :=
  c.hash (flatSeeds ++ [b] ++ pkBytes programId ++ domainTag)

/-- Modelled from the spec (§4.2): the bump search, from candidate `b` downward —
accept the first candidate address that is not on the curve, fail with
`DerivationExhausted` below bump 0. -/
def findBump (c : Crypto) (programId : Nat) (flatSeeds : List Nat) :
    Nat → Except Err (Nat × Nat)
  | 0 =>
    if c.isOnCurve (pdaCandidate c programId flatSeeds 0) then .error .derivationExhausted
    else .ok (pdaCandidate c programId flatSeeds 0, 0)
  | b + 1 =>
    if c.isOnCurve (pdaCandidate c programId flatSeeds (b + 1)) then
      findBump c programId flatSeeds b
    else .ok (pdaCandidate c programId flatSeeds (b + 1), b + 1)

/-- Modelled from the spec (§4.2): `derive(program_id, seeds)` — reject any seed
longer than 32 bytes with `InvalidSeed`, then search bumps from 255 down to 0. -/
def derive (c : Crypto) (programId : Nat) (seeds : List (List Nat)) :
    Except Err (Nat × Nat) :=
  if seeds.any (fun s => 32 < s.length) then .error .invalidSeed
  else findBump c programId seeds.flatten 255

/-- The fixed set of identifiers for a program deployment (spec §3; field names as
used by deposit.ts). -/
structure ProgramAddresses where
  solidoProgramId : Nat
  solidoInstanceId : Nat
  stSolMintAddress : Nat
  deriving DecidableEq, Repr

/-- An amount in the ledger's smallest unit (spec §3, `Amount`; the `Lamports`
type of `src/js/src/types.ts`, not present under `src/`). -/
structure Lamports where
  lamports : Nat
  deriving DecidableEq, Repr

/-- Modelled from the spec: `findAuthorityProgramAddress`
(`src/js/src/utils.ts`, not present under `src/`) resolves the derived authority
address for a well-known seed string of the deployment (spec §2, §3 `Seed`,
§4.2): it runs the derivation engine on the deployment's program id with the
seed string and returns the address component. -/
def findAuthorityProgramAddress (c : Crypto) (programAddresses : ProgramAddresses)
    (seed : String) : Except Err Nat :=
  (derive c programAddresses.solidoProgramId [strBytes seed]).map (fun p => p.1)

/-- An account reference: address plus signer/writable flags (spec §3,
`AccountRef`; the entries of `keys` in deposit.ts). -/
structure AccountMeta where
  pubkey : Nat
  isSigner : Bool
  isWritable : Bool
  deriving DecidableEq, Repr

/-- The SPL token program identifier, an external well-known constant
(`TOKEN_PROGRAM_ID` from `@solana/spl-token`); its concrete 32-byte value is
irrelevant to the claims, so it is modelled as an abstract fixed address. -/
def TOKEN_PROGRAM_ID : Nat := 2

/-- The system program identifier (`SystemProgram.programId` from
`@solana/web3.js`), whose canonical value is the all-zero 32-byte address. -/
def systemProgramId : Nat := 0

/-- A submittable instruction (spec §3, `Instruction`; `TransactionInstruction`
of `@solana/web3.js`). -/
structure TransactionInstruction where
  keys : List AccountMeta
  programId : Nat
  data : List Nat
  deriving DecidableEq, Repr

/-- The account list of the deposit instruction (deposit.ts lines 35–56,
`keys`): instance, sender, recipient, mint, derived reserve, derived mint
authority, token program, system program — with the source's signer/writable
flags. -/
def depositKeys (instanceId sender recipient mint reserve mintAuthority : Nat) :
    List AccountMeta :=
  [ { pubkey := instanceId, isSigner := false, isWritable := true },
    { pubkey := sender, isSigner := true, isWritable := true },
    { pubkey := recipient, isSigner := false, isWritable := true },
    { pubkey := mint, isSigner := false, isWritable := true },
    { pubkey := reserve, isSigner := false, isWritable := true },
    { pubkey := mintAuthority, isSigner := false, isWritable := false },
    { pubkey := TOKEN_PROGRAM_ID, isSigner := false, isWritable := false },
    { pubkey := systemProgramId, isSigner := false, isWritable := false } ]

/-- The deposit instruction builder (deposit.ts lines 11–62): encode
`{instruction := 1, amount}` with the layout codec, resolve the two derived
authority addresses, build the account list, and assemble the instruction. Any
component failure aborts the assembly with that component's error. -/
def getDepositInstruction (c : Crypto) (senderAddress recipientStSolAddress : Nat)
    (programAddresses : ProgramAddresses) (amount : Lamports) :
    Except Err TransactionInstruction := do
  let data ← dataLayoutEncode 1 amount.lamports
  let reserveAccountAddress ← findAuthorityProgramAddress c programAddresses "reserve_account"
  let mintAuthorityAddress ← findAuthorityProgramAddress c programAddresses "mint_authority"
  let keys := depositKeys programAddresses.solidoInstanceId senderAddress
    recipientStSolAddress programAddresses.stSolMintAddress
    reserveAccountAddress mintAuthorityAddress
  return { keys := keys, data := data, programId := programAddresses.solidoProgramId }

/-- Decidable equality for `Except` results, used to evaluate the model on
concrete inputs. -/
instance {e a : Type} [DecidableEq e] [DecidableEq a] : DecidableEq (Except e a) := fun x y =>
  match x, y with
  | .ok u, .ok v =>
    if h : u = v then .isTrue (by rw [h]) else .isFalse (by intro hc; cases hc; exact h rfl)
  | .error u, .error v =>
    if h : u = v then .isTrue (by rw [h]) else .isFalse (by intro hc; cases hc; exact h rfl)
  | .ok _, .error _ => .isFalse (by intro hc; cases hc)
  | .error _, .ok _ => .isFalse (by intro hc; cases hc)

/-- Every `leBytes` buffer has exactly the requested width. -/
theorem leBytes_length (w v : Nat) : (leBytes w v).length = w := by
  induction w generalizing v with
  | zero => rfl
  | succ w ih => simp [leBytes, ih]

/-- Reading back a little-endian buffer recovers the encoded value when it fits. -/
theorem leValue_leBytes (w v : Nat) (h : v < 256 ^ w) : leValue (leBytes w v) = v := by
  induction w generalizing v with
  | zero =>
    simp only [pow_zero, Nat.lt_one_iff] at h
    subst h; rfl
  | succ w ih =>
    have hv : v / 256 < 256 ^ w := by
      rw [Nat.div_lt_iff_lt_mul (by norm_num)]
      calc v < 256 ^ (w + 1) := h
        _ = 256 ^ w * 256 := by ring
    simp only [leBytes, leValue, ih _ hv]
    omega

/-- The low bytes only depend on the value modulo the width. -/
theorem leBytes_mod (w v : Nat) : leBytes w (v % 256 ^ w) = leBytes w v := by
  induction w generalizing v with
  | zero => rfl
  | succ w ih =>
    have hdvd : (256 : Nat) ∣ 256 ^ (w + 1) := dvd_pow_self 256 (by omega)
    have h1 : v % 256 ^ (w + 1) % 256 = v % 256 := Nat.mod_mod_of_dvd v hdvd
    have h2 : v % 256 ^ (w + 1) / 256 = v / 256 % 256 ^ w := by
      rw [pow_succ, mul_comm, Nat.mod_mul_right_div_self]
    simp only [leBytes, h1, h2, ih (v / 256)]

/-- A wider little-endian buffer splits into its low and high parts. -/
theorem leBytes_split (w1 w2 v : Nat) :
    leBytes (w1 + w2) v = leBytes w1 v ++ leBytes w2 (v / 256 ^ w1) := by
  induction w1 generalizing v with
  | zero => simp [leBytes]
  | succ w1 ih =>
    have harith : w1 + 1 + w2 = (w1 + w2) + 1 := by omega
    rw [harith]
    simp only [leBytes, ih (v / 256), List.cons_append]
    rw [Nat.div_div_eq_div_mul, ← pow_succ']

/-- The two 32-bit halves written by the nu64 layout concatenate to the 8-byte
little-endian encoding of the value. -/
theorem leBytes_halves (a : Nat) :
    leBytes 4 (a % 2 ^ 32) ++ leBytes 4 (a / 2 ^ 32) = leBytes 8 a := by
  have h32 : (2 : Nat) ^ 32 = 256 ^ 4 := by norm_num
  rw [h32, leBytes_mod 4 a, ← leBytes_split 4 4 a]

/-- Fueled bit length is an upper bound: `n < 2 ^ bitLenAux fuel n` when the fuel
covers `n`. -/
theorem bitLenAux_lt (fuel : Nat) : ∀ n, n ≤ fuel → n < 2 ^ bitLenAux fuel n := by
  induction fuel with
  | zero => intro n h; simp only [Nat.le_zero] at h; subst h; decide
  | succ fuel ih =>
    intro n h
    by_cases hn : n = 0
    · subst hn; simp [bitLenAux]
    · have h2 : n / 2 ≤ fuel := by omega
      have hlt := ih (n / 2) h2
      simp only [bitLenAux, hn, if_false, pow_succ]
      omega

/-- Zero has bit length zero at every fuel. -/
theorem bitLenAux_zero (fuel : Nat) : bitLenAux fuel 0 = 0 := by
  cases fuel <;> simp [bitLenAux]

/-- Fueled bit length is tight from below: `2 ^ (bitLenAux fuel n - 1) ≤ n` for
positive `n`. -/
theorem bitLenAux_le (fuel : Nat) : ∀ n, 0 < n → n ≤ fuel → 2 ^ (bitLenAux fuel n - 1) ≤ n := by
  induction fuel with
  | zero => intro n hn h; omega
  | succ fuel ih =>
    intro n hn h
    have hne : ¬n = 0 := by omega
    simp only [bitLenAux, hne, if_false, Nat.add_sub_cancel]
    by_cases h2 : n / 2 = 0
    · have h1 : n = 1 := by omega
      subst h1
      simp [bitLenAux, bitLenAux_zero]
    · have hfz : n / 2 ≤ fuel := by omega
      have hih := ih (n / 2) (by omega) hfz
      have hpos : 0 < bitLenAux fuel (n / 2) := by
        rcases fuel with _ | fuel
        · omega
        · simp only [bitLenAux, h2, if_false]; omega
      have hsplit : 2 ^ bitLenAux fuel (n / 2) = 2 * 2 ^ (bitLenAux fuel (n / 2) - 1) := by
        rw [← pow_succ']
        congr 1
        omega
      rw [hsplit]
      omega

/-- Bit-length bounds specialised to `bitLen`. -/
theorem bitLen_bounds (n : Nat) (hn : 0 < n) :
    2 ^ (bitLen n - 1) ≤ n ∧ n < 2 ^ bitLen n :=
  ⟨bitLenAux_le n n hn le_rfl, bitLenAux_lt n n le_rfl⟩

/-- Values below the significand bound are untouched by the number conversion. -/
theorem jsRound_of_lt (n : Nat) (h : n < 2 ^ 53) : jsRound n = n := by
  rw [jsRound, if_pos h]

/-- The number conversion never rounds below the containing ulp multiple. -/
theorem jsRound_ge_floor (n : Nat) (h : ¬n < 2 ^ 53) :
    n / 2 ^ (bitLen n - 53) * 2 ^ (bitLen n - 53) ≤ jsRound n := by
  rw [jsRound, if_neg h]
  set k := bitLen n - 53 with hk
  dsimp only
  have hstep : n / 2 ^ k * 2 ^ k ≤ (n / 2 ^ k + 1) * 2 ^ k :=
    Nat.mul_le_mul_right _ (Nat.le_succ _)
  split
  · exact le_rfl
  · split
    · exact hstep
    · split
      · exact le_rfl
      · exact hstep

/-- Amounts at or above `2^64` stay at or above `2^64` after the number
conversion. -/
theorem le_jsRound_of_le (n : Nat) (h : 2 ^ 64 ≤ n) : 2 ^ 64 ≤ jsRound n := by
  have h53 : ¬n < 2 ^ 53 := by
    have hpow : (2 : Nat) ^ 53 ≤ 2 ^ 64 := Nat.pow_le_pow_right (by norm_num) (by norm_num)
    omega
  obtain ⟨hlo, hhi⟩ := bitLen_bounds n (by omega)
  have hL : 65 ≤ bitLen n := by
    by_contra hc
    push_neg at hc
    have : n < 2 ^ 64 :=
      lt_of_lt_of_le hhi (Nat.pow_le_pow_right (by norm_num) (by omega))
    omega
  set k := bitLen n - 53 with hk
  have hq : 2 ^ 52 ≤ n / 2 ^ k := by
    rw [Nat.le_div_iff_mul_le (Nat.two_pow_pos k)]
    calc (2 : Nat) ^ 52 * 2 ^ k = 2 ^ (52 + k) := by rw [← pow_add]
      _ = 2 ^ (bitLen n - 1) := by congr 1; omega
      _ ≤ n := hlo
  calc (2 : Nat) ^ 64 = 2 ^ (52 + 12) := by norm_num
    _ ≤ 2 ^ (52 + k) := Nat.pow_le_pow_right (by norm_num) (by omega)
    _ = 2 ^ 52 * 2 ^ k := by rw [pow_add]
    _ ≤ n / 2 ^ k * 2 ^ k := Nat.mul_le_mul_right _ hq
    _ ≤ jsRound n := jsRound_ge_floor n h53

/-- Every amount in the top rounding window `[2^64 - 2^10, 2^64)` rounds up to
`2^64` under the number conversion: the neighbouring representable values are
`2^64 - 2^11` and `2^64`, these amounts sit at least half an ulp above the
former, and the midpoint `2^64 - 2^10` itself rounds up because the significand
of `2^64 - 2^11` is odd. -/
theorem jsRound_top_window (a : Nat) (h1 : 2 ^ 64 - 2 ^ 10 ≤ a) (h2 : a < 2 ^ 64) :
    2 ^ 64 ≤ jsRound a := by
  have e1 : (2 : Nat) ^ 64 - 2 ^ 10 = 18446744073709550592 := by norm_num
  have e2 : (2 : Nat) ^ 64 = 18446744073709551616 := by norm_num
  rw [e1] at h1
  rw [e2] at h2
  have h53 : ¬a < 2 ^ 53 := by omega
  obtain ⟨hlo, hhi⟩ := bitLen_bounds a (by omega)
  have hble : bitLen a ≤ 64 := by
    by_contra hc
    push_neg at hc
    have h65 : 2 ^ 64 ≤ 2 ^ (bitLen a - 1) := Nat.pow_le_pow_right (by norm_num) (by omega)
    rw [e2] at h65
    omega
  have hbge : 64 ≤ bitLen a := by
    by_contra hc
    push_neg at hc
    have hup : 2 ^ bitLen a ≤ 2 ^ 63 := Nat.pow_le_pow_right (by norm_num) (by omega)
    have e4 : (2 : Nat) ^ 63 = 9223372036854775808 := by norm_num
    omega
  have hbl : bitLen a = 64 := by omega
  have hq : a / 2 ^ 11 = 9007199254740991 := by
    have e5 : (2 : Nat) ^ 11 = 2048 := by norm_num
    rw [e5]
    omega
  have hr : 1024 ≤ a % 2 ^ 11 := by
    have e5 : (2 : Nat) ^ 11 = 2048 := by norm_num
    rw [e5]
    omega
  rw [jsRound, if_neg h53, hbl]
  norm_num at hq hr ⊢
  split
  · omega
  · split
    · omega
    · split
      · omega
      · omega

/-- Successful encoding shape: when the discriminant fits a byte and the
converted amount fits 64 bits, the payload is the discriminant byte followed by
the two little-endian 32-bit halves of the converted amount. -/
theorem dataLayoutEncode_ok (i a : Nat) (hi : i ≤ 255) (ha : jsRound a < 2 ^ 64) :
    dataLayoutEncode i a =
      .ok (i :: (leBytes 4 (jsRound a % 2 ^ 32) ++ leBytes 4 (jsRound a / 2 ^ 32))) := by
  have hdiv : jsRound a / 2 ^ 32 < 2 ^ 32 := by
    rw [Nat.div_lt_iff_lt_mul (Nat.two_pow_pos 32)]
    calc jsRound a < 2 ^ 64 := ha
      _ = 2 ^ 32 * 2 ^ 32 := by norm_num
  simp only [dataLayoutEncode]
  rw [if_neg (by omega), if_neg (by omega)]

/-- Any amount whose converted value reaches `2^64` makes the encoder raise the
range error, whatever the discriminant. -/
theorem dataLayoutEncode_overflow (i a : Nat) (ha : 2 ^ 64 ≤ jsRound a) :
    dataLayoutEncode i a = .error .rangeError := by
  simp only [dataLayoutEncode]
  by_cases hi : 255 < i
  · rw [if_pos hi]
  · rw [if_neg hi, if_pos]
    rw [Nat.le_div_iff_mul_le (Nat.two_pow_pos 32)]
    calc (2 : Nat) ^ 32 * 2 ^ 32 = 2 ^ 64 := by norm_num
      _ ≤ jsRound a := ha

/-- The payload length equals the layout span on every successful encoding. -/
theorem dataLayoutEncode_ok_length (i a : Nat) (bs : List Nat)
    (h : dataLayoutEncode i a = .ok bs) : bs.length = dataLayoutSpan := by
  simp only [dataLayoutEncode] at h
  by_cases hi : 255 < i
  · rw [if_pos hi] at h; cases h
  · rw [if_neg hi] at h
    by_cases hh : 2 ^ 32 ≤ jsRound a / 2 ^ 32
    · rw [if_pos hh] at h; cases h
    · rw [if_neg hh] at h
      injection h with h
      rw [← h]
      simp [leBytes_length, dataLayoutSpan]

/-- Decoding the encoder's payload shape recovers the discriminant and the
converted amount. -/
theorem dataLayoutDecode_encode (i a : Nat) (ha : a < 2 ^ 64) :
    dataLayoutDecode (i :: (leBytes 4 (a % 2 ^ 32) ++ leBytes 4 (a / 2 ^ 32))) =
      .ok (i, jsRound a) := by
  have h4 : ((256 : Nat)) ^ 4 = 2 ^ 32 := by norm_num
  have hlo : a % 2 ^ 32 < 256 ^ 4 := by rw [h4]; exact Nat.mod_lt _ (Nat.two_pow_pos 32)
  have hhi : a / 2 ^ 32 < 256 ^ 4 := by
    rw [h4, Nat.div_lt_iff_lt_mul (Nat.two_pow_pos 32)]
    calc a < 2 ^ 64 := ha
      _ = 2 ^ 32 * 2 ^ 32 := by norm_num
  have hlen1 : (leBytes 4 (a % 2 ^ 32)).length = 4 := leBytes_length 4 _
  have hlen2 : (leBytes 4 (a / 2 ^ 32)).length = 4 := leBytes_length 4 _
  have hlen : ¬(i :: (leBytes 4 (a % 2 ^ 32) ++ leBytes 4 (a / 2 ^ 32))).length <
      dataLayoutSpan := by
    simp only [List.length_cons, List.length_append, hlen1, hlen2, dataLayoutSpan]
    omega
  have hdrop1 : ((i :: (leBytes 4 (a % 2 ^ 32) ++ leBytes 4 (a / 2 ^ 32))).drop 1).take 4 =
      leBytes 4 (a % 2 ^ 32) := by
    simp only [List.drop_succ_cons, List.drop_zero]
    exact List.take_left' hlen1
  have hdrop5 : ((i :: (leBytes 4 (a % 2 ^ 32) ++ leBytes 4 (a / 2 ^ 32))).drop 5).take 4 =
      leBytes 4 (a / 2 ^ 32) := by
    simp only [List.drop_succ_cons, List.drop_zero]
    rw [List.drop_left' hlen1]
    exact List.take_of_length_le (le_of_eq hlen2)
  have hval : a / 2 ^ 32 * 2 ^ 32 + a % 2 ^ 32 = a := by
    rw [mul_comm]
    exact Nat.div_add_mod a (2 ^ 32)
  simp only [dataLayoutDecode, if_neg hlen, List.headD_cons, hdrop1, hdrop5,
    leValue_leBytes 4 _ hlo, leValue_leBytes 4 _ hhi, hval]

/-- Characterisation of a successful bump search from `n` downward: the result
is the first candidate from the top whose address is off the curve, and every
candidate above it is on the curve. -/
theorem findBump_ok (c : Crypto) (programId : Nat) (fs : List Nat) :
    ∀ n addr bump, findBump c programId fs n = .ok (addr, bump) →
      bump ≤ n ∧ addr = pdaCandidate c programId fs bump ∧
      c.isOnCurve (pdaCandidate c programId fs bump) = false ∧
      ∀ b, bump < b → b ≤ n → c.isOnCurve (pdaCandidate c programId fs b) = true := by
  intro n
  induction n with
  | zero =>
    intro addr bump h
    simp only [findBump] at h
    by_cases hc : c.isOnCurve (pdaCandidate c programId fs 0) = true
    · rw [if_pos hc] at h; cases h
    · rw [if_neg hc] at h
      simp only [Except.ok.injEq, Prod.mk.injEq] at h
      obtain ⟨h1, h2⟩ := h
      subst h1; subst h2
      refine ⟨le_rfl, rfl, by simpa using hc, ?_⟩
      intro b hb1 hb2; omega
  | succ n ih =>
    intro addr bump h
    simp only [findBump] at h
    by_cases hc : c.isOnCurve (pdaCandidate c programId fs (n + 1)) = true
    · rw [if_pos hc] at h
      obtain ⟨h1, h2, h3, h4⟩ := ih addr bump h
      refine ⟨by omega, h2, h3, ?_⟩
      intro b hb1 hb2
      rcases Nat.lt_or_ge b (n + 1) with hb | hb
      · exact h4 b hb1 (by omega)
      · have hbe : b = n + 1 := by omega
        subst hbe; exact hc
    · rw [if_neg hc] at h
      simp only [Except.ok.injEq, Prod.mk.injEq] at h
      obtain ⟨h1, h2⟩ := h
      subst h1; subst h2
      refine ⟨le_rfl, rfl, by simpa using hc, ?_⟩
      intro b hb1 hb2; omega

/-- A concrete choice of cryptographic primitives used to evaluate the model on
concrete inputs: a constant hash and a curve-membership test that always fails,
so every derivation succeeds at the first bump candidate. -/
def c0 : Crypto := { hash := fun _ => 7, isOnCurve := fun _ => false }

/-- A concrete program deployment used by the witnesses. -/
def pa0 : ProgramAddresses :=
  { solidoProgramId := 12, solidoInstanceId := 13, stSolMintAddress := 14 }

/-- C1: for the deposit instruction with sender `S`, recipient `R`, program
addresses `P` and amount 1 000 000 base units, `getDepositInstruction` returns
an instruction whose payload is exactly the 9 bytes `[0x01]` followed by the
little-endian 8-byte encoding of 1 000 000, and whose account list has exactly
the 8 entries instance (writable), sender (signer, writable), recipient
(writable), mint (writable), derived reserve (writable), derived mint authority
(readonly), token program (readonly), system program (readonly), in that
order. -/
theorem getDepositInstruction_scenario (c : Crypto) (S R : Nat) (P : ProgramAddresses)
    (res ma : Nat)
    (hres : findAuthorityProgramAddress c P "reserve_account" = .ok res)
    (hma : findAuthorityProgramAddress c P "mint_authority" = .ok ma) :
    getDepositInstruction c S R P { lamports := 1000000 } =
      .ok { keys := [
              { pubkey := P.solidoInstanceId, isSigner := false, isWritable := true },
              { pubkey := S, isSigner := true, isWritable := true },
              { pubkey := R, isSigner := false, isWritable := true },
              { pubkey := P.stSolMintAddress, isSigner := false, isWritable := true },
              { pubkey := res, isSigner := false, isWritable := true },
              { pubkey := ma, isSigner := false, isWritable := false },
              { pubkey := TOKEN_PROGRAM_ID, isSigner := false, isWritable := false },
              { pubkey := systemProgramId, isSigner := false, isWritable := false } ],
            programId := P.solidoProgramId,
            data := [1, 64, 66, 15, 0, 0, 0, 0, 0] } := by
  have henc : dataLayoutEncode 1 (1000000 : Nat) = .ok [1, 64, 66, 15, 0, 0, 0, 0, 0] := by
    decide
  have hunfold : getDepositInstruction c S R P { lamports := 1000000 } =
      (dataLayoutEncode 1 (1000000 : Nat)).bind (fun data =>
        (findAuthorityProgramAddress c P "reserve_account").bind (fun res0 =>
          (findAuthorityProgramAddress c P "mint_authority").bind (fun ma0 =>
            .ok { keys := depositKeys P.solidoInstanceId S R P.stSolMintAddress res0 ma0,
                  programId := P.solidoProgramId, data := data }))) := rfl
  rw [hunfold, henc]
  simp only [Except.bind]
  rw [hres]
  simp only [Except.bind]
  rw [hma]
  simp only [Except.bind, depositKeys]

/-- C1 witness: the scenario evaluated at concrete addresses with the concrete
primitives `c0`, whose derivations both return address 7 at bump 255. -/
theorem getDepositInstruction_scenario_witness :
    getDepositInstruction c0 10 11 pa0 { lamports := 1000000 } =
      .ok { keys := [
              { pubkey := 13, isSigner := false, isWritable := true },
              { pubkey := 10, isSigner := true, isWritable := true },
              { pubkey := 11, isSigner := false, isWritable := true },
              { pubkey := 14, isSigner := false, isWritable := true },
              { pubkey := 7, isSigner := false, isWritable := true },
              { pubkey := 7, isSigner := false, isWritable := false },
              { pubkey := TOKEN_PROGRAM_ID, isSigner := false, isWritable := false },
              { pubkey := systemProgramId, isSigner := false, isWritable := false } ],
            programId := 12,
            data := [1, 64, 66, 15, 0, 0, 0, 0, 0] } :=
  getDepositInstruction_scenario c0 10 11 pa0 7 7 (by decide) (by decide)

/-- C2 counterexample: the claimed boundary fails on the code — encoding the
amount `2^64 - 1` raises the range error, because the nu64 layout converts the
amount to a 53-bit-significand JavaScript number, which rounds `2^64 - 1` up to
`2^64`. -/
theorem dataLayoutEncode_boundary_counterexample :
    dataLayoutEncode 1 (2 ^ 64 - 1) = .error .rangeError ∧
    jsRound (2 ^ 64 - 1) = 2 ^ 64 :=
  ⟨by decide, by decide⟩

/-- C2 amended: every amount from `2^64 - 2^10` upward — which includes every
amount at or above `2^64` and the claimed boundary `2^64 - 1` — fails with the
range error, because the nu64 layout converts the amount to a
53-bit-significand JavaScript number, which rounds all of these up to at least
`2^64`; a discriminant exceeding its 8-bit width also fails rather than
silently truncating; and the largest amount that encodes successfully is
`2^64 - 1025`, whose encoded field is its rounded value `2^64 - 2^11`. -/
theorem dataLayoutEncode_overflow_amended :
    (∀ instruction amount, 2 ^ 64 - 2 ^ 10 ≤ amount →
        dataLayoutEncode instruction amount = .error .rangeError) ∧
    (∀ instruction amount, 255 < instruction →
        dataLayoutEncode instruction amount = .error .rangeError) ∧
    dataLayoutEncode 1 (2 ^ 64 - 1025) = .ok (1 :: leBytes 8 (2 ^ 64 - 2 ^ 11)) := by
  refine ⟨?_, ?_, by decide⟩
  · intro i a ha
    rcases Nat.lt_or_ge a (2 ^ 64) with h | h
    · exact dataLayoutEncode_overflow i a (jsRound_top_window a ha h)
    · exact dataLayoutEncode_overflow i a (le_jsRound_of_le a h)
  · intro i a hi
    simp only [dataLayoutEncode]
    rw [if_pos hi]

/-- C2 witness: the amended overflow theorem applied at the concrete amount
`2^64`. -/
theorem dataLayoutEncode_overflow_witness :
    dataLayoutEncode 1 (2 ^ 64) = .error .rangeError :=
  dataLayoutEncode_overflow_amended.1 1 (2 ^ 64) (by norm_num)

/-- C3: for the deposit instruction kind, the account-list builder returns the
signer/writable flags in the same fixed order for every choice of input
addresses — the flag sequence is the constant table of the kind, and position
`i` always carries the address of the same role. -/
theorem depositKeys_flags_stable (i1 s1 r1 m1 res1 ma1 i2 s2 r2 m2 res2 ma2 : Nat) :
    (depositKeys i1 s1 r1 m1 res1 ma1).map (fun k => (k.isSigner, k.isWritable)) =
      (depositKeys i2 s2 r2 m2 res2 ma2).map (fun k => (k.isSigner, k.isWritable)) ∧
    (depositKeys i1 s1 r1 m1 res1 ma1).map (fun k => (k.isSigner, k.isWritable)) =
      [(false, true), (true, true), (false, true), (false, true), (false, true),
        (false, false), (false, false), (false, false)] ∧
    (depositKeys i1 s1 r1 m1 res1 ma1).map (fun k => k.pubkey) =
      [i1, s1, r1, m1, res1, ma1, TOKEN_PROGRAM_ID, systemProgramId] :=
  ⟨rfl, rfl, rfl⟩

/-- C4: the encoded payload length is a pure function of the instruction kind:
any two successful encodings have the same length, namely the layout span
`1 + 8 = 9` bytes, independent of the amount value. -/
theorem dataLayoutEncode_length_pure (i a a' : Nat) (bs bs' : List Nat)
    (h : dataLayoutEncode i a = .ok bs) (h' : dataLayoutEncode i a' = .ok bs') :
    bs.length = dataLayoutSpan ∧ bs'.length = bs.length := by
  have h1 := dataLayoutEncode_ok_length i a bs h
  have h2 := dataLayoutEncode_ok_length i a' bs' h'
  omega

/-- C4 witness: two encodings at amounts 5 and 1 000 000 both span 9 bytes. -/
theorem dataLayoutEncode_length_pure_witness :
    [1, 5, 0, 0, 0, 0, 0, 0, 0].length = dataLayoutSpan ∧
    ([1, 64, 66, 15, 0, 0, 0, 0, 0] : List Nat).length =
      ([1, 5, 0, 0, 0, 0, 0, 0, 0] : List Nat).length :=
  dataLayoutEncode_length_pure 1 5 1000000 [1, 5, 0, 0, 0, 0, 0, 0, 0]
    [1, 64, 66, 15, 0, 0, 0, 0, 0] (by decide) (by decide)

/-- C5: address derivation is deterministic — the engine is a pure function of
`(program_id, seeds)`, so any two runs on the same input return the same
`(address, bump)` result. -/
theorem derive_deterministic (c : Crypto) (programId : Nat) (seeds : List (List Nat))
    (r1 r2 : Except Err (Nat × Nat))
    (h1 : derive c programId seeds = r1) (h2 : derive c programId seeds = r2) :
    r1 = r2 := by
  rw [← h1, ← h2]

/-- C5 witness: two runs of the derivation on a concrete input agree. -/
theorem derive_deterministic_witness :
    (Except.ok ((7 : Nat), (255 : Nat)) : Except Err (Nat × Nat)) = .ok (7, 255) :=
  derive_deterministic c0 5 [[1, 2, 3]] (.ok (7, 255)) (.ok (7, 255)) (by decide) (by decide)

/-- C6: assembly is all-or-nothing — an error result of `getDepositInstruction`
is exactly the originating error of the failing component (codec or one of the
two derivations), and a success result carries the complete account list of 8
entries and the full 9-byte payload produced by the codec, never a partial
instruction. -/
theorem getDepositInstruction_all_or_nothing (c : Crypto) (S R : Nat)
    (P : ProgramAddresses) (amount : Lamports) :
    (∀ e, getDepositInstruction c S R P amount = .error e →
        dataLayoutEncode 1 amount.lamports = .error e ∨
        findAuthorityProgramAddress c P "reserve_account" = .error e ∨
        findAuthorityProgramAddress c P "mint_authority" = .error e) ∧
    (∀ instr, getDepositInstruction c S R P amount = .ok instr →
        ∃ bs res ma,
          dataLayoutEncode 1 amount.lamports = .ok bs ∧
          findAuthorityProgramAddress c P "reserve_account" = .ok res ∧
          findAuthorityProgramAddress c P "mint_authority" = .ok ma ∧
          instr = { keys := depositKeys P.solidoInstanceId S R P.stSolMintAddress res ma,
                    programId := P.solidoProgramId, data := bs } ∧
          instr.keys.length = 8 ∧ instr.data.length = dataLayoutSpan) := by
  have hunfold : getDepositInstruction c S R P amount =
      (dataLayoutEncode 1 amount.lamports).bind (fun data =>
        (findAuthorityProgramAddress c P "reserve_account").bind (fun res0 =>
          (findAuthorityProgramAddress c P "mint_authority").bind (fun ma0 =>
            .ok { keys := depositKeys P.solidoInstanceId S R P.stSolMintAddress res0 ma0,
                  programId := P.solidoProgramId, data := data }))) := rfl
  constructor
  · intro e he
    rw [hunfold] at he
    cases hE : dataLayoutEncode 1 amount.lamports with
    | error e0 =>
      rw [hE] at he
      simp only [Except.bind] at he
      injection he with h
      subst h
      exact Or.inl rfl
    | ok data =>
      rw [hE] at he
      simp only [Except.bind] at he
      cases hR : findAuthorityProgramAddress c P "reserve_account" with
      | error e1 =>
        rw [hR] at he
        simp only [Except.bind] at he
        injection he with h
        subst h
        exact Or.inr (Or.inl rfl)
      | ok res =>
        rw [hR] at he
        simp only [Except.bind] at he
        cases hM : findAuthorityProgramAddress c P "mint_authority" with
        | error e2 =>
          rw [hM] at he
          simp only [Except.bind] at he
          injection he with h
          subst h
          exact Or.inr (Or.inr rfl)
        | ok ma =>
          rw [hM] at he
          simp only [Except.bind] at he
          cases he
  · intro instr hi
    rw [hunfold] at hi
    cases hE : dataLayoutEncode 1 amount.lamports with
    | error e0 =>
      rw [hE] at hi
      simp only [Except.bind] at hi
      cases hi
    | ok data =>
      rw [hE] at hi
      simp only [Except.bind] at hi
      cases hR : findAuthorityProgramAddress c P "reserve_account" with
      | error e1 =>
        rw [hR] at hi
        simp only [Except.bind] at hi
        cases hi
      | ok res =>
        rw [hR] at hi
        simp only [Except.bind] at hi
        cases hM : findAuthorityProgramAddress c P "mint_authority" with
        | error e2 =>
          rw [hM] at hi
          simp only [Except.bind] at hi
          cases hi
        | ok ma =>
          rw [hM] at hi
          simp only [Except.bind] at hi
          injection hi with h
          refine ⟨data, res, ma, rfl, rfl, rfl, h.symm, ?_, ?_⟩
          · rw [← h]
            rfl
          · rw [← h]
            exact dataLayoutEncode_ok_length 1 amount.lamports data hE

/-- C6 witness: the success branch of the all-or-nothing theorem, applied at
concrete inputs. -/
theorem getDepositInstruction_all_or_nothing_witness :
    ∃ bs res ma,
      dataLayoutEncode 1 (1000000 : Nat) = .ok bs ∧
      findAuthorityProgramAddress c0 pa0 "reserve_account" = .ok res ∧
      findAuthorityProgramAddress c0 pa0 "mint_authority" = .ok ma ∧
      ({ keys := depositKeys 13 10 11 14 7 7, programId := 12,
         data := [1, 64, 66, 15, 0, 0, 0, 0, 0] } : TransactionInstruction) =
        { keys := depositKeys 13 10 11 14 res ma, programId := 12, data := bs } ∧
      ({ keys := depositKeys 13 10 11 14 7 7, programId := 12,
         data := [1, 64, 66, 15, 0, 0, 0, 0, 0] } : TransactionInstruction).keys.length = 8 ∧
      ({ keys := depositKeys 13 10 11 14 7 7, programId := 12,
         data := [1, 64, 66, 15, 0, 0, 0, 0, 0] } : TransactionInstruction).data.length =
        dataLayoutSpan :=
  (getDepositInstruction_all_or_nothing c0 10 11 pa0 { lamports := 1000000 }).2
    { keys := depositKeys 13 10 11 14 7 7, programId := 12,
      data := [1, 64, 66, 15, 0, 0, 0, 0, 0] } (by decide)

/-- C7 counterexample: the codec does not round-trip on every valid 64-bit field
value — at amount `2^53 + 1` the encoder succeeds but decoding returns the
rounded amount `2^53`, not the original. -/
theorem dataLayout_roundtrip_counterexample :
    (dataLayoutEncode 1 (2 ^ 53 + 1)).bind dataLayoutDecode ≠ .ok (1, 2 ^ 53 + 1) ∧
    (dataLayoutEncode 1 (2 ^ 53 + 1)).bind dataLayoutDecode = .ok (1, 2 ^ 53) :=
  ⟨by decide, by decide⟩

/-- C7 amended: the codec round-trips for every discriminant that fits its
8-bit width and every amount below `2^64` that is exactly representable as a
JavaScript number (`jsRound a = a`; in particular every amount up to
`2^53 - 1`): decoding the encoding returns exactly `(kind, fields)`. Amounts
that are not representable are rounded by the nu64 number conversion before
being written, so decode returns the rounded value instead. -/
theorem dataLayout_roundtrip_amended (i a : Nat) (hi : i ≤ 255) (ha : jsRound a = a)
    (h64 : a < 2 ^ 64) :
    (dataLayoutEncode i a).bind dataLayoutDecode = .ok (i, a) := by
  rw [dataLayoutEncode_ok i a hi (by rw [ha]; exact h64), ha]
  simp only [Except.bind]
  rw [dataLayoutDecode_encode i a h64, ha]

/-- C7 witness: the round-trip at discriminant 1 and amount 1 000 000. -/
theorem dataLayout_roundtrip_witness :
    (dataLayoutEncode 1 1000000).bind dataLayoutDecode = .ok (1, 1000000) :=
  dataLayout_roundtrip_amended 1 1000000 (by decide) (by decide) (by decide)

/-- C8: every successful derivation returns an address that fails the
curve-membership check, and it is the candidate of the first bump, searching
from 255 downward, whose hash output is off the curve: every candidate above
the returned bump is on the curve. -/
theorem derive_off_curve (c : Crypto) (programId : Nat) (seeds : List (List Nat))
    (addr bump : Nat) (h : derive c programId seeds = .ok (addr, bump)) :
    c.isOnCurve addr = false ∧ bump ≤ 255 ∧
    addr = pdaCandidate c programId seeds.flatten bump ∧
    ∀ b, bump < b → b ≤ 255 →
      c.isOnCurve (pdaCandidate c programId seeds.flatten b) = true := by
  rw [derive] at h
  by_cases hs : seeds.any (fun s => 32 < s.length) = true
  · rw [if_pos hs] at h; cases h
  · rw [if_neg hs] at h
    obtain ⟨h1, h2, h3, h4⟩ := findBump_ok c programId seeds.flatten 255 addr bump h
    exact ⟨h2 ▸ h3, h1, h2, h4⟩

/-- C8 witness: with the always-off-curve primitives `c0`, the derivation on a
concrete input returns the bump-255 candidate, and its address is off the
curve. -/
theorem derive_off_curve_witness : c0.isOnCurve 7 = false :=
  (derive_off_curve c0 5 [[1, 2, 3]] 7 255 (by decide)).1

/-- C9: the deposit account list has exactly one signer, and it is the
caller-supplied sender address at position 2 of the 8-entry list (index 1);
every other entry — program addresses, derived addresses, the recipient — is
not a signer. -/
theorem depositKeys_unique_signer (i s r m res ma : Nat) :
    (depositKeys i s r m res ma).countP (fun k => k.isSigner) = 1 ∧
    (depositKeys i s r m res ma)[1]? =
      some { pubkey := s, isSigner := true, isWritable := true } ∧
    (depositKeys i s r m res ma).length = 8 :=
  ⟨rfl, rfl, rfl⟩

/-- C10: the amount field is encoded exactly throughout the JavaScript
safe-integer range — for every amount up to `2^53 - 1` the payload is the
discriminant byte followed by the exact 8-byte little-endian encoding of the
amount — while beyond that range exactness fails: `2^53 + 1` encodes to a
different field than its own little-endian bytes. -/
theorem dataLayoutEncode_exact_safe_range (a : Nat) (h : a ≤ 2 ^ 53 - 1) :
    dataLayoutEncode 1 a = .ok (1 :: leBytes 8 a) ∧
    dataLayoutEncode 1 (2 ^ 53 + 1) ≠ .ok (1 :: leBytes 8 (2 ^ 53 + 1)) := by
  constructor
  · have hlt : a < 2 ^ 53 := by
      have : (0 : Nat) < 2 ^ 53 := Nat.two_pow_pos 53
      omega
    have hr : jsRound a = a := jsRound_of_lt a hlt
    have h64 : jsRound a < 2 ^ 64 := by
      rw [hr]
      calc a < 2 ^ 53 := hlt
        _ < 2 ^ 64 := by norm_num
    rw [dataLayoutEncode_ok 1 a (by norm_num) h64, hr, leBytes_halves]
  · decide

/-- C10 witness: exactness at the concrete amount 42. -/
theorem dataLayoutEncode_exact_safe_range_witness :
    dataLayoutEncode 1 42 = .ok (1 :: leBytes 8 42) ∧
    dataLayoutEncode 1 (2 ^ 53 + 1) ≠ .ok (1 :: leBytes 8 (2 ^ 53 + 1)) :=
  dataLayoutEncode_exact_safe_range 42 (by decide)
